import Mathlib

/-!
Shallow embedding, in Lean, of the cores of the eden repository that the
verification claims concern: the analytics demo's lock-free latency histogram
(`src/examples/analytics-demo/src/metrics.rs`), its storage backends and
connection pool (`src/examples/analytics-demo/src/storage.rs`), its validator
(`src/examples/analytics-demo/src/validation.rs`), the redis-observer's
migration status handling and coverage sampler
(`src/examples/redis-observer/src/main.rs`), and the complexity analyzer's
type sampler (`src/tools/redis-complexity-analyzer/src/main.rs`).

Machine floats (f64) are modelled by exact rationals; u64 counters are
modelled by naturals (no claim here depends on 64-bit wrap-around); Redis
keys are modelled as lists of characters; the per-call PRNG draws and Redis
responses are passed in explicitly.
-/

namespace Eden

/-- Number of slots in the lock-free circular buffer (`SAMPLE_SLOTS` in
`metrics.rs`). -/
def SAMPLE_SLOTS : ℕ := 8192

/-- The value `u64::MAX`, the sentinel initial value of `min_ns`. -/
def U64_MAX : ℕ := 2 ^ 64 - 1

namespace LockFreeLatencyHistogram

/-- `LockFreeLatencyHistogram::percentile` from `metrics.rs`: given sorted
samples (u64 nanoseconds) and a percentile, interpolate linearly between the
two adjacent ordered samples around rank `pct/100 * (n-1)`.  The Rust
`rank.floor() as usize` saturates negative values to 0, which `Int.toNat`
reproduces. -/
def percentile (sorted_samples : List ℕ) (pct : ℚ) : ℚ :=
  if sorted_samples.isEmpty then 0
  else
    let n : ℕ := sorted_samples.length
    let rank : ℚ := pct / 100 * ((n : ℚ) - 1)
    let lowerIdx : ℕ := (⌊rank⌋).toNat
    let upperIdx : ℕ := (⌈rank⌉).toNat
    if lowerIdx = upperIdx ∨ n ≤ upperIdx then
      (sorted_samples.getD (min lowerIdx (n - 1)) 0 : ℚ)
    else
      let fraction : ℚ := rank - (lowerIdx : ℚ)
      let lowerVal : ℚ := (sorted_samples.getD lowerIdx 0 : ℚ)
      let upperVal : ℚ := (sorted_samples.getD upperIdx 0 : ℚ)
      lowerVal + fraction * (upperVal - lowerVal)

/-- The closed-form linear interpolation of a sorted sample list at a real
rank `r`, as the spec writes it: `sorted[⌊r⌋] + (r-⌊r⌋)·(sorted[⌈r⌉]-sorted[⌊r⌋])`. -/
def interpAt (s : List ℕ) (r : ℚ) : ℚ :=
  (s.getD (⌊r⌋).toNat 0 : ℚ) + (r - ((⌊r⌋).toNat : ℚ)) *
    ((s.getD (⌈r⌉).toNat 0 : ℚ) - (s.getD (⌊r⌋).toNat 0 : ℚ))

/-- Elements of a `(· ≤ ·)`-sorted list are monotone in the index (stated for
`getD`, indices in bounds). -/
theorem getD_le_getD_of_sorted {s : List ℕ} (hs : List.Sorted (· ≤ ·) s)
    {i j : ℕ} (hij : i ≤ j) (hj : j < s.length) :
    s.getD i 0 ≤ s.getD j 0 := by
  have hi : i < s.length := lt_of_le_of_lt hij hj
  rw [List.getD_eq_getElem s 0 hi, List.getD_eq_getElem s 0 hj]
  rcases eq_or_lt_of_le hij with h | h
  · subst h; exact le_refl _
  · exact List.Sorted.rel_get_of_lt hs h

/-- For a non-empty sample list and a percentile between 0 and 100 the Rust
branch structure of `percentile` collapses to the single interpolation
formula at rank `pct/100 * (n-1)`. -/
theorem percentile_eq_interpAt (s : List ℕ) (pct : ℚ) (hne : s ≠ [])
    (h0 : 0 ≤ pct) (h100 : pct ≤ 100) :
    percentile s pct = interpAt s (pct / 100 * ((s.length : ℚ) - 1)) := by
  have hn : 1 ≤ s.length := List.length_pos.mpr hne
  set n := s.length with hn_def
  set r : ℚ := pct / 100 * ((n : ℚ) - 1) with hr_def
  have hsub : ((n : ℚ) - 1) = ((n - 1 : ℕ) : ℚ) := by
    rw [Nat.cast_sub hn]; norm_num
  have hr0 : 0 ≤ r := by
    apply mul_nonneg (by positivity)
    rw [hsub]; positivity
  have hr1 : r ≤ ((n - 1 : ℕ) : ℚ) := by
    rw [← hsub]
    have h1 : pct / 100 ≤ 1 := by linarith [div_le_one_of_le₀ h100 (by norm_num : (0:ℚ) ≤ 100)]
    have h2 : (0:ℚ) ≤ (n : ℚ) - 1 := by rw [hsub]; positivity
    nlinarith
  have hceil_le : ⌈r⌉ ≤ ((n - 1 : ℕ) : ℤ) := by
    rw [Int.ceil_le]; push_cast; exact_mod_cast hr1
  have hupper_le : (⌈r⌉).toNat ≤ n - 1 := by
    calc (⌈r⌉).toNat ≤ (((n - 1 : ℕ) : ℤ)).toNat := Int.toNat_le_toNat hceil_le
    _ = n - 1 := Int.toNat_natCast _
  have hupper_lt : (⌈r⌉).toNat < n := lt_of_le_of_lt hupper_le (by omega)
  have hfl_cast : ((⌊r⌋).toNat : ℚ) = (⌊r⌋ : ℚ) := by
    exact_mod_cast congrArg (fun z : ℤ => (z : ℚ)) (Int.toNat_of_nonneg (Int.floor_nonneg.mpr hr0))
  have hlow_le_up : (⌊r⌋).toNat ≤ (⌈r⌉).toNat := Int.toNat_le_toNat (Int.floor_le_ceil r)
  unfold percentile
  rw [if_neg (by simp [List.isEmpty_iff, hne])]
  simp only [← hn_def, ← hr_def]
  by_cases hcase : (⌊r⌋).toNat = (⌈r⌉).toNat ∨ n ≤ (⌈r⌉).toNat
  · rw [if_pos hcase]
    rcases hcase with hcase | hcase
    · have hfc : ⌊r⌋ = ⌈r⌉ := by
        have h1 : (0:ℤ) ≤ ⌊r⌋ := Int.floor_nonneg.mpr hr0
        have h2 : (0:ℤ) ≤ ⌈r⌉ := le_trans h1 (Int.floor_le_ceil r)
        omega
      have hr_eq : r = ((⌊r⌋ : ℤ) : ℚ) := by
        have h1 := Int.floor_le r
        have h2 := Int.le_ceil r
        rw [← hfc] at h2
        exact le_antisymm h2 h1
      have hzero : r - ((⌊r⌋).toNat : ℚ) = 0 := by rw [hfl_cast]; linarith [hr_eq]
      have hmin : min ((⌊r⌋).toNat) (n - 1) = (⌊r⌋).toNat :=
        min_eq_left (by omega)
      rw [hmin]
      unfold interpAt
      rw [hzero]
      ring
    · omega
  · rw [if_neg hcase]
    unfold interpAt
    ring

/-- On a sorted list, `interpAt` at any in-range rank lies between the first
and the last element. -/
theorem interpAt_bounds (s : List ℕ) (r : ℚ) (hne : s ≠ [])
    (hsort : List.Sorted (· ≤ ·) s) (h0 : 0 ≤ r) (h1 : r ≤ (s.length : ℚ) - 1) :
    (s.getD 0 0 : ℚ) ≤ interpAt s r ∧ interpAt s r ≤ (s.getD (s.length - 1) 0 : ℚ) := by
  have hn : 1 ≤ s.length := List.length_pos.mpr hne
  set n := s.length with hn_def
  have hsub : ((n : ℚ) - 1) = ((n - 1 : ℕ) : ℚ) := by
    rw [Nat.cast_sub hn]; norm_num
  have hceil_le : ⌈r⌉ ≤ ((n - 1 : ℕ) : ℤ) := by
    rw [Int.ceil_le]; rw [hsub] at h1; exact_mod_cast h1
  have hupper_le : (⌈r⌉).toNat ≤ n - 1 := by
    calc (⌈r⌉).toNat ≤ (((n - 1 : ℕ) : ℤ)).toNat := Int.toNat_le_toNat hceil_le
    _ = n - 1 := Int.toNat_natCast _
  have hupper_lt : (⌈r⌉).toNat < n := lt_of_le_of_lt hupper_le (by omega)
  have hlow_le_up : (⌊r⌋).toNat ≤ (⌈r⌉).toNat := Int.toNat_le_toNat (Int.floor_le_ceil r)
  have hfl_cast : ((⌊r⌋).toNat : ℚ) = (⌊r⌋ : ℚ) := by
    exact_mod_cast congrArg (fun z : ℤ => (z : ℚ)) (Int.toNat_of_nonneg (Int.floor_nonneg.mpr h0))
  have hAB : (s.getD (⌊r⌋).toNat 0 : ℕ) ≤ s.getD (⌈r⌉).toNat 0 :=
    getD_le_getD_of_sorted hsort hlow_le_up hupper_lt
  have hABq : (s.getD (⌊r⌋).toNat 0 : ℚ) ≤ (s.getD (⌈r⌉).toNat 0 : ℚ) := by exact_mod_cast hAB
  have hf0 : 0 ≤ r - ((⌊r⌋).toNat : ℚ) := by rw [hfl_cast]; linarith [Int.floor_le r]
  have hf1 : r - ((⌊r⌋).toNat : ℚ) ≤ 1 := by
    rw [hfl_cast]; linarith [Int.lt_floor_add_one r]
  have hfirst : (s.getD 0 0 : ℕ) ≤ s.getD (⌊r⌋).toNat 0 :=
    getD_le_getD_of_sorted hsort (Nat.zero_le _) (lt_of_le_of_lt hlow_le_up hupper_lt)
  have hlast : (s.getD (⌈r⌉).toNat 0 : ℕ) ≤ s.getD (n - 1) 0 :=
    getD_le_getD_of_sorted hsort hupper_le (by omega)
  have hfirstq : (s.getD 0 0 : ℚ) ≤ (s.getD (⌊r⌋).toNat 0 : ℚ) := by exact_mod_cast hfirst
  have hlastq : (s.getD (⌈r⌉).toNat 0 : ℚ) ≤ (s.getD (n - 1) 0 : ℚ) := by exact_mod_cast hlast
  unfold interpAt
  constructor
  · nlinarith
  · nlinarith

/-- On a sorted list, `interpAt` is monotone in the rank over the in-range
interval. -/
theorem interpAt_mono (s : List ℕ) (hne : s ≠ []) (hsort : List.Sorted (· ≤ ·) s)
    {r1 r2 : ℚ} (h0 : 0 ≤ r1) (h12 : r1 ≤ r2) (h2 : r2 ≤ (s.length : ℚ) - 1) :
    interpAt s r1 ≤ interpAt s r2 := by
  have hn : 1 ≤ s.length := List.length_pos.mpr hne
  set n := s.length with hn_def
  have hr20 : 0 ≤ r2 := le_trans h0 h12
  have hsub : ((n : ℚ) - 1) = ((n - 1 : ℕ) : ℚ) := by
    rw [Nat.cast_sub hn]; norm_num
  have hceil2_le : ⌈r2⌉ ≤ ((n - 1 : ℕ) : ℤ) := by
    rw [Int.ceil_le]; rw [hsub] at h2; exact_mod_cast h2
  have hupper2_le : (⌈r2⌉).toNat ≤ n - 1 := by
    calc (⌈r2⌉).toNat ≤ (((n - 1 : ℕ) : ℤ)).toNat := Int.toNat_le_toNat hceil2_le
    _ = n - 1 := Int.toNat_natCast _
  have hupper2_lt : (⌈r2⌉).toNat < n := lt_of_le_of_lt hupper2_le (by omega)
  have hceil1_le : ⌈r1⌉ ≤ ⌈r2⌉ := Int.ceil_le_ceil h12
  have hupper1_lt : (⌈r1⌉).toNat < n :=
    lt_of_le_of_lt (Int.toNat_le_toNat hceil1_le) hupper2_lt
  have hfloor_le : ⌊r1⌋ ≤ ⌊r2⌋ := Int.floor_le_floor h12
  have hlow1 : (⌊r1⌋).toNat ≤ (⌈r1⌉).toNat := Int.toNat_le_toNat (Int.floor_le_ceil r1)
  have hlow2 : (⌊r2⌋).toNat ≤ (⌈r2⌉).toNat := Int.toNat_le_toNat (Int.floor_le_ceil r2)
  have hfl1_cast : ((⌊r1⌋).toNat : ℚ) = (⌊r1⌋ : ℚ) := by
    exact_mod_cast congrArg (fun z : ℤ => (z : ℚ)) (Int.toNat_of_nonneg (Int.floor_nonneg.mpr h0))
  have hfl2_cast : ((⌊r2⌋).toNat : ℚ) = (⌊r2⌋ : ℚ) := by
    exact_mod_cast congrArg (fun z : ℤ => (z : ℚ)) (Int.toNat_of_nonneg (Int.floor_nonneg.mpr hr20))
  have hA1B1 : (s.getD (⌊r1⌋).toNat 0 : ℚ) ≤ (s.getD (⌈r1⌉).toNat 0 : ℚ) := by
    exact_mod_cast getD_le_getD_of_sorted hsort hlow1 hupper1_lt
  have hA2B2 : (s.getD (⌊r2⌋).toNat 0 : ℚ) ≤ (s.getD (⌈r2⌉).toNat 0 : ℚ) := by
    exact_mod_cast getD_le_getD_of_sorted hsort hlow2 hupper2_lt
  have hf1_0 : 0 ≤ r1 - ((⌊r1⌋).toNat : ℚ) := by rw [hfl1_cast]; linarith [Int.floor_le r1]
  have hf1_1 : r1 - ((⌊r1⌋).toNat : ℚ) ≤ 1 := by
    rw [hfl1_cast]; linarith [Int.lt_floor_add_one r1]
  have hf2_0 : 0 ≤ r2 - ((⌊r2⌋).toNat : ℚ) := by rw [hfl2_cast]; linarith [Int.floor_le r2]
  have hmul2 : 0 ≤ (r2 - ((⌊r2⌋).toNat : ℚ)) *
      ((s.getD (⌈r2⌉).toNat 0 : ℚ) - (s.getD (⌊r2⌋).toNat 0 : ℚ)) :=
    mul_nonneg hf2_0 (sub_nonneg.mpr hA2B2)
  have hdown : (s.getD (⌊r2⌋).toNat 0 : ℚ) ≤ interpAt s r2 := by
    unfold interpAt; linarith
  rcases eq_or_lt_of_le hfloor_le with heq | hlt
  · -- same floor bucket
    have hAeq : (⌊r1⌋).toNat = (⌊r2⌋).toNat := by rw [heq]
    by_cases hr1int : r1 = ((⌊r1⌋).toNat : ℚ)
    · -- r1 is an integer rank: interpAt s r1 is exactly the lower sample
      have hz : r1 - ((⌊r1⌋).toNat : ℚ) = 0 := by linarith [hr1int]
      have h1 : interpAt s r1 = (s.getD (⌊r1⌋).toNat 0 : ℚ) := by
        unfold interpAt; rw [hz]; ring
      rw [h1, hAeq]; exact hdown
    · -- both ranks lie strictly inside the bucket: same ceiling
      have hr1_gt : ((⌊r1⌋) : ℚ) < r1 :=
        lt_of_le_of_ne (Int.floor_le r1) (by rw [← hfl1_cast]; exact fun h => hr1int h.symm)
      have hr2_lt : r2 < (⌊r2⌋ : ℚ) + 1 := Int.lt_floor_add_one r2
      have hceil1 : ⌈r1⌉ = ⌊r1⌋ + 1 := by
        rw [Int.ceil_eq_iff]
        refine ⟨by push_cast; linarith, ?_⟩
        push_cast
        rw [← heq] at hr2_lt
        linarith
      have hceil2 : ⌈r2⌉ = ⌊r2⌋ + 1 := by
        rw [Int.ceil_eq_iff]
        refine ⟨?_, by push_cast; linarith⟩
        push_cast
        rw [← heq]
        linarith
      have hBeq : (⌈r1⌉).toNat = (⌈r2⌉).toNat := by rw [hceil1, hceil2, heq]
      have hgrow : (r1 - ((⌊r2⌋).toNat : ℚ)) *
            ((s.getD (⌈r2⌉).toNat 0 : ℚ) - (s.getD (⌊r2⌋).toNat 0 : ℚ)) ≤
          (r2 - ((⌊r2⌋).toNat : ℚ)) *
            ((s.getD (⌈r2⌉).toNat 0 : ℚ) - (s.getD (⌊r2⌋).toNat 0 : ℚ)) :=
        mul_le_mul_of_nonneg_right (by linarith) (sub_nonneg.mpr hA2B2)
      unfold interpAt
      rw [hBeq, hAeq]
      linarith
  · -- r2 is in a strictly later bucket
    have hstep : ⌈r1⌉ ≤ ⌊r2⌋ := by
      have := Int.ceil_le_floor_add_one r1
      omega
    have hidx : (⌈r1⌉).toNat ≤ (⌊r2⌋).toNat := Int.toNat_le_toNat hstep
    have hB1A2 : (s.getD (⌈r1⌉).toNat 0 : ℚ) ≤ (s.getD (⌊r2⌋).toNat 0 : ℚ) := by
      exact_mod_cast getD_le_getD_of_sorted hsort hidx
        (lt_of_le_of_lt hlow2 hupper2_lt)
    have hup : interpAt s r1 ≤ (s.getD (⌈r1⌉).toNat 0 : ℚ) := by
      have hshrink : 0 ≤ (1 - (r1 - ((⌊r1⌋).toNat : ℚ))) *
          ((s.getD (⌈r1⌉).toNat 0 : ℚ) - (s.getD (⌊r1⌋).toNat 0 : ℚ)) :=
        mul_nonneg (by linarith) (sub_nonneg.mpr hA1B1)
      unfold interpAt; nlinarith
    linarith

end LockFreeLatencyHistogram

open LockFreeLatencyHistogram in
/-- C4: for every non-empty sorted sample list of length n and every pct in
{50, 95, 99}, `LockFreeLatencyHistogram::percentile` returns
sorted[⌊r⌋] + (r − ⌊r⌋)·(sorted[⌈r⌉] − sorted[⌊r⌋]) where r = pct/100·(n − 1);
for n = 1 it returns the single sample, and the result lies between the
smallest and the largest sample. -/
theorem C4_percentile_interpolation (s : List ℕ) (pct : ℚ) (hne : s ≠ [])
    (hsort : List.Sorted (· ≤ ·) s) (hp : pct = 50 ∨ pct = 95 ∨ pct = 99) :
    percentile s pct = interpAt s (pct / 100 * ((s.length : ℚ) - 1)) ∧
    (s.length = 1 → percentile s pct = (s.getD 0 0 : ℚ)) ∧
    (s.getD 0 0 : ℚ) ≤ percentile s pct ∧
    percentile s pct ≤ (s.getD (s.length - 1) 0 : ℚ) := by
  have h0 : 0 ≤ pct := by rcases hp with h | h | h <;> rw [h] <;> norm_num
  have h100 : pct ≤ 100 := by rcases hp with h | h | h <;> rw [h] <;> norm_num
  have heq := percentile_eq_interpAt s pct hne h0 h100
  have hn : 1 ≤ s.length := List.length_pos.mpr hne
  have hsub : ((s.length : ℚ) - 1) = ((s.length - 1 : ℕ) : ℚ) := by
    rw [Nat.cast_sub hn]; norm_num
  have hx0 : (0:ℚ) ≤ (s.length : ℚ) - 1 := by rw [hsub]; positivity
  have hr0 : 0 ≤ pct / 100 * ((s.length : ℚ) - 1) := mul_nonneg (by positivity) hx0
  have hr1 : pct / 100 * ((s.length : ℚ) - 1) ≤ (s.length : ℚ) - 1 :=
    mul_le_of_le_one_left hx0 ((div_le_one (by norm_num)).mpr h100)
  have hbounds := interpAt_bounds s (pct / 100 * ((s.length : ℚ) - 1)) hne hsort hr0 hr1
  refine ⟨heq, ?_, ?_, ?_⟩
  · intro hlen
    rw [heq, hlen]
    norm_num [interpAt]
  · rw [heq]; exact hbounds.1
  · rw [heq]; exact hbounds.2

open LockFreeLatencyHistogram in
/-- Concrete instantiation of C4 at the sorted list [3, 5] and pct = 50. -/
theorem C4_percentile_interpolation_witness :
    (([3, 5] : List ℕ) ≠ [] ∧ List.Sorted (· ≤ ·) ([3, 5] : List ℕ) ∧
      ((50:ℚ) = 50 ∨ (50:ℚ) = 95 ∨ (50:ℚ) = 99)) ∧
    (percentile [3, 5] 50 = interpAt [3, 5] ((50:ℚ) / 100 * ((([3, 5] : List ℕ).length : ℚ) - 1)) ∧
      (([3, 5] : List ℕ).length = 1 → percentile [3, 5] 50 = (([3, 5] : List ℕ).getD 0 0 : ℚ)) ∧
      (([3, 5] : List ℕ).getD 0 0 : ℚ) ≤ percentile [3, 5] 50 ∧
      percentile [3, 5] 50 ≤ (([3, 5] : List ℕ).getD (([3, 5] : List ℕ).length - 1) 0 : ℚ)) ∧
    percentile [3, 5] 50 = 4 := by
  refine ⟨⟨by decide, by decide, Or.inl rfl⟩,
    C4_percentile_interpolation [3, 5] 50 (by decide) (by decide) (Or.inl rfl), ?_⟩
  have hcl : (⌈(1:ℚ)/2⌉ : ℤ) = 1 := by rw [Int.ceil_eq_iff] <;> norm_num
  have hfl : (⌊(1:ℚ)/2⌋ : ℤ) = 0 := by rw [Int.floor_eq_iff] <;> norm_num
  norm_num [percentile, interpAt, hcl, hfl]

/-- Mutable state of `LockFreeLatencyHistogram` (`metrics.rs`), executed
sequentially: the circular buffer is a total function on slot indices, the
atomics are plain naturals, and the sequential effect of each CAS loop is the
corresponding min/max update. -/
structure LockFreeLatencyHistogram where
  samples : ℕ → ℕ
  write_idx : ℕ
  total_count : ℕ
  sum_ns : ℕ
  min_ns : ℕ
  max_ns : ℕ

namespace LockFreeLatencyHistogram

/-- `LockFreeLatencyHistogram::new`. -/
def new : LockFreeLatencyHistogram :=
  { samples := fun _ => 0
    write_idx := 0
    total_count := 0
    sum_ns := 0
    min_ns := U64_MAX
    max_ns := 0 }

/-- `LockFreeLatencyHistogram::record`, sequentially: bump count and sum,
lower min / raise max, then store at slot `write_idx % SAMPLE_SLOTS` and bump
`write_idx` (fetch_add returns the pre-increment value). -/
def record (h : LockFreeLatencyHistogram) (latency_ns : ℕ) : LockFreeLatencyHistogram :=
  { samples := fun i =>
      if i = h.write_idx % SAMPLE_SLOTS then latency_ns else h.samples i
    write_idx := h.write_idx + 1
    total_count := h.total_count + 1
    sum_ns := h.sum_ns + latency_ns
    min_ns := if latency_ns < h.min_ns then latency_ns else h.min_ns
    max_ns := if h.max_ns < latency_ns then latency_ns else h.max_ns }

/-- Result tuple of `get_percentiles_and_reset`:
`(count, avg_us, min_us, max_us, p50_us, p95_us, p99_us)`. -/
structure Percentiles where
  count : ℕ
  avg_us : ℚ
  min_us : ℚ
  max_us : ℚ
  p50_us : ℚ
  p95_us : ℚ
  p99_us : ℚ

/-- The collection loop of `get_percentiles_and_reset`: read the first
`min(count, SAMPLE_SLOTS)` slots and keep only the positive values. -/
def collectedSamples (h : LockFreeLatencyHistogram) : List ℕ :=
  ((List.range (min h.total_count SAMPLE_SLOTS)).map h.samples).filter (fun v => 0 < v)

/-- `LockFreeLatencyHistogram::get_percentiles_and_reset`: swap out the four
counters; with a zero count return zeros without touching the slots;
otherwise read (and zero) the first `min(count, SAMPLE_SLOTS)` slots, keep
the positive values, sort them, and interpolate the percentiles.  Note the
slots are read from index 0 regardless of `write_idx`, and `write_idx` is
not reset. -/
def get_percentiles_and_reset (h : LockFreeLatencyHistogram) :
    LockFreeLatencyHistogram × Percentiles :=
  let count := h.total_count
  let sum_ns := h.sum_ns
  let min_ns := h.min_ns
  let max_ns := h.max_ns
  if count = 0 then
    ({ h with total_count := 0, sum_ns := 0, min_ns := U64_MAX, max_ns := 0 },
     ⟨0, 0, 0, 0, 0, 0, 0⟩)
  else
    let sample_count := min count SAMPLE_SLOTS
    let kept := collectedSamples h
    let drained : LockFreeLatencyHistogram :=
      { samples := fun i => if i < sample_count then 0 else h.samples i
        write_idx := h.write_idx
        total_count := 0
        sum_ns := 0
        min_ns := U64_MAX
        max_ns := 0 }
    if kept = [] then
      (drained, ⟨count, 0, 0, 0, 0, 0, 0⟩)
    else
      let sorted := kept.mergeSort (fun a b => decide (a ≤ b))
      let avg_us := ((sum_ns : ℚ) / (count : ℚ)) / 1000
      let min_us : ℚ := if min_ns = U64_MAX then 0 else (min_ns : ℚ) / 1000
      let max_us : ℚ := (max_ns : ℚ) / 1000
      (drained,
       ⟨count, avg_us, min_us, max_us,
        percentile sorted 50 / 1000,
        percentile sorted 95 / 1000,
        percentile sorted 99 / 1000⟩)

/-- Sequential execution of a list of `record` calls. -/
def recordAll (h : LockFreeLatencyHistogram) (ws : List ℕ) : LockFreeLatencyHistogram :=
  ws.foldl record h

/-- Characterization of the drain on a state with a non-zero count and a
non-empty filtered sample list. -/
theorem drain_spec (h : LockFreeLatencyHistogram) (hc : h.total_count ≠ 0)
    (hk : collectedSamples h ≠ []) :
    (get_percentiles_and_reset h).2 =
      ⟨h.total_count, ((h.sum_ns : ℚ) / (h.total_count : ℚ)) / 1000,
       (if h.min_ns = U64_MAX then 0 else (h.min_ns : ℚ) / 1000),
       (h.max_ns : ℚ) / 1000,
       percentile ((collectedSamples h).mergeSort (fun a b => decide (a ≤ b))) 50 / 1000,
       percentile ((collectedSamples h).mergeSort (fun a b => decide (a ≤ b))) 95 / 1000,
       percentile ((collectedSamples h).mergeSort (fun a b => decide (a ≤ b))) 99 / 1000⟩ := by
  simp only [get_percentiles_and_reset]
  rw [if_neg hc, if_neg hk]

/-- Characterization of the drain on a state with a non-zero count but an
all-zero visible sample window. -/
theorem drain_spec_empty (h : LockFreeLatencyHistogram) (hc : h.total_count ≠ 0)
    (hk : collectedSamples h = []) :
    (get_percentiles_and_reset h).2 = ⟨h.total_count, 0, 0, 0, 0, 0, 0⟩ := by
  simp only [get_percentiles_and_reset]
  rw [if_neg hc, if_pos hk]

/-- Every drain leaves `total_count = 0` in the post-state. -/
theorem drain_count_zero (h : LockFreeLatencyHistogram) :
    (get_percentiles_and_reset h).1.total_count = 0 := by
  simp only [get_percentiles_and_reset]
  split_ifs <;> rfl

/-- A drain with no intervening records after a drain reports a zero count. -/
theorem drain_drain_count (h : LockFreeLatencyHistogram) :
    (get_percentiles_and_reset (get_percentiles_and_reset h).1).2.count = 0 := by
  simp only [get_percentiles_and_reset]
  split_ifs with h1 h2 h3 <;> first | rfl | simp_all

/-- The percentile of a one-element sample list is that element, for any
percentile. -/
theorem percentile_singleton (a : ℕ) (pct : ℚ) : percentile [a] pct = (a : ℚ) := by
  simp [percentile]

/-- Percentiles of a sorted sample list are monotone in the percentile. -/
theorem percentile_mono (s : List ℕ) (hne : s ≠ []) (hsort : List.Sorted (· ≤ ·) s)
    {p1 p2 : ℚ} (h0 : 0 ≤ p1) (h12 : p1 ≤ p2) (h100 : p2 ≤ 100) :
    percentile s p1 ≤ percentile s p2 := by
  have hn : 1 ≤ s.length := List.length_pos.mpr hne
  have hsub : ((s.length : ℚ) - 1) = ((s.length - 1 : ℕ) : ℚ) := by
    rw [Nat.cast_sub hn]; norm_num
  have hx0 : (0:ℚ) ≤ (s.length : ℚ) - 1 := by rw [hsub]; positivity
  rw [percentile_eq_interpAt s p1 hne h0 (le_trans h12 h100),
      percentile_eq_interpAt s p2 hne (le_trans h0 h12) h100]
  apply interpAt_mono s hne hsort
  · exact mul_nonneg (by positivity) hx0
  · exact mul_le_mul_of_nonneg_right (by linarith) hx0
  · exact mul_le_of_le_one_left hx0 ((div_le_one (by norm_num)).mpr h100)

/-- Percentiles of a non-empty sorted sample list lie between its first and
last element. -/
theorem percentile_bounds (s : List ℕ) (hne : s ≠ []) (hsort : List.Sorted (· ≤ ·) s)
    {pct : ℚ} (h0 : 0 ≤ pct) (h100 : pct ≤ 100) :
    (s.getD 0 0 : ℚ) ≤ percentile s pct ∧
      percentile s pct ≤ (s.getD (s.length - 1) 0 : ℚ) := by
  have hn : 1 ≤ s.length := List.length_pos.mpr hne
  have hsub : ((s.length : ℚ) - 1) = ((s.length - 1 : ℕ) : ℚ) := by
    rw [Nat.cast_sub hn]; norm_num
  have hx0 : (0:ℚ) ≤ (s.length : ℚ) - 1 := by rw [hsub]; positivity
  rw [percentile_eq_interpAt s pct hne h0 h100]
  exact interpAt_bounds s _ hne hsort (mul_nonneg (by positivity) hx0)
    (mul_le_of_le_one_left hx0 ((div_le_one (by norm_num)).mpr h100))

/-- Unfolding of `recordAll` over a cons cell. -/
theorem recordAll_cons (h : LockFreeLatencyHistogram) (w : ℕ) (ws : List ℕ) :
    recordAll h (w :: ws) = recordAll (record h w) ws := rfl

/-- `recordAll` adds the number of records to the count. -/
theorem recordAll_total_count (ws : List ℕ) :
    ∀ h : LockFreeLatencyHistogram,
      (recordAll h ws).total_count = h.total_count + ws.length := by
  induction ws with
  | nil => intro h; simp [recordAll]
  | cons w t ih =>
    intro h
    rw [recordAll_cons, ih]
    simp [record]
    omega

/-- A record sequence can only lower `min_ns`. -/
theorem recordAll_min_le_init (ws : List ℕ) :
    ∀ h : LockFreeLatencyHistogram, (recordAll h ws).min_ns ≤ h.min_ns := by
  induction ws with
  | nil => intro h; simp [recordAll]
  | cons w t ih =>
    intro h
    rw [recordAll_cons]
    refine le_trans (ih _) ?_
    simp only [record]
    split_ifs with hw
    · exact le_of_lt hw
    · exact le_refl _

/-- After a record sequence, `min_ns` is a lower bound for every recorded
value. -/
theorem recordAll_min_le (ws : List ℕ) :
    ∀ h : LockFreeLatencyHistogram, ∀ v ∈ ws, (recordAll h ws).min_ns ≤ v := by
  induction ws with
  | nil => intro h v hv; simp at hv
  | cons w t ih =>
    intro h v hv
    rw [recordAll_cons]
    rcases List.mem_cons.mp hv with rfl | hv
    · refine le_trans (recordAll_min_le_init t _) ?_
      simp only [record]
      split_ifs with hw
      · exact le_refl _
      · omega
    · exact ih _ v hv

/-- A record sequence can only raise `max_ns`. -/
theorem recordAll_max_ge_init (ws : List ℕ) :
    ∀ h : LockFreeLatencyHistogram, h.max_ns ≤ (recordAll h ws).max_ns := by
  induction ws with
  | nil => intro h; simp [recordAll]
  | cons w t ih =>
    intro h
    rw [recordAll_cons]
    refine le_trans ?_ (ih _)
    simp only [record]
    split_ifs with hw
    · exact le_of_lt hw
    · exact le_refl _

/-- After a record sequence, `max_ns` is an upper bound for every recorded
value. -/
theorem recordAll_max_ge (ws : List ℕ) :
    ∀ h : LockFreeLatencyHistogram, ∀ v ∈ ws, v ≤ (recordAll h ws).max_ns := by
  induction ws with
  | nil => intro h v hv; simp at hv
  | cons w t ih =>
    intro h v hv
    rw [recordAll_cons]
    rcases List.mem_cons.mp hv with rfl | hv
    · refine le_trans ?_ (recordAll_max_ge_init t _)
      simp only [record]
      split_ifs with hw
      · exact le_refl _
      · omega
    · exact ih _ v hv

/-- After a record sequence, every slot holds either its old value or one of
the recorded values. -/
theorem recordAll_samples_mem (ws : List ℕ) :
    ∀ h : LockFreeLatencyHistogram, ∀ i,
      (recordAll h ws).samples i = h.samples i ∨ (recordAll h ws).samples i ∈ ws := by
  induction ws with
  | nil => intro h i; exact Or.inl rfl
  | cons w t ih =>
    intro h i
    rw [recordAll_cons]
    rcases ih (record h w) i with hcase | hcase
    · by_cases hi : i = h.write_idx % SAMPLE_SLOTS
      · rw [hcase]
        simp only [record]
        rw [if_pos hi]
        exact Or.inr (List.mem_cons_self w t)
      · rw [hcase]
        simp only [record]
        rw [if_neg hi]
        exact Or.inl rfl
    · exact Or.inr (List.mem_cons_of_mem w hcase)

/-- Every element of the sorted drained samples of a single fresh epoch is a
positive recorded value. -/
theorem mem_sorted_of_fresh (ws : List ℕ) {x : ℕ}
    (hx : x ∈ (collectedSamples (recordAll new ws)).mergeSort (fun a b => decide (a ≤ b))) :
    x ∈ ws ∧ 0 < x := by
  rw [List.mem_mergeSort] at hx
  unfold collectedSamples at hx
  rw [List.mem_filter] at hx
  obtain ⟨hmap, hposb⟩ := hx
  have hpos : 0 < x := of_decide_eq_true hposb
  rw [List.mem_map] at hmap
  obtain ⟨i, _, hxi⟩ := hmap
  rcases recordAll_samples_mem ws new i with hc | hc
  · rw [hxi] at hc
    simp only [new] at hc
    omega
  · rw [hxi] at hc
    exact ⟨hc, hpos⟩

end LockFreeLatencyHistogram

open LockFreeLatencyHistogram in
/-- C1 counterexample: three sequential record/drain epochs from a fresh
histogram after which the drained tuple has count = 2 but min_us > p50_us,
because the drain reads slots 0..min(count, SAMPLE_SLOTS) while the records
of the epoch landed at the un-reset write_idx, leaving a stale sample from an
earlier epoch visible.  The epochs are: record 1000; drain; record 50;
drain; record 500; record 600; drain. -/
def staleEpochState : LockFreeLatencyHistogram :=
  record (record (get_percentiles_and_reset
    (record (get_percentiles_and_reset (record new 1000)).1 50)).1 500) 600

open LockFreeLatencyHistogram in
/-- C1 refutation: at the concrete record/drain schedule of `staleEpochState`
the final drain returns count = 2 > 0 with min_us = 1/2 but p50_us = 1/20,
violating min ≤ p50. -/
theorem C1_cross_epoch_counterexample :
    0 < (get_percentiles_and_reset staleEpochState).2.count ∧
    ¬ ((get_percentiles_and_reset staleEpochState).2.min_us ≤
       (get_percentiles_and_reset staleEpochState).2.p50_us) := by
  have hc : staleEpochState.total_count = 2 := by decide
  have hmin : staleEpochState.min_ns = 500 := by decide
  have hkept : collectedSamples staleEpochState = [50] := by decide
  have hs := drain_spec staleEpochState (by rw [hc]; decide) (by rw [hkept]; decide)
  rw [hs]
  constructor
  · rw [show (⟨staleEpochState.total_count, ((staleEpochState.sum_ns : ℚ) / (staleEpochState.total_count : ℚ)) / 1000,
      (if staleEpochState.min_ns = U64_MAX then 0 else (staleEpochState.min_ns : ℚ) / 1000),
      (staleEpochState.max_ns : ℚ) / 1000,
      percentile ((collectedSamples staleEpochState).mergeSort (fun a b => decide (a ≤ b))) 50 / 1000,
      percentile ((collectedSamples staleEpochState).mergeSort (fun a b => decide (a ≤ b))) 95 / 1000,
      percentile ((collectedSamples staleEpochState).mergeSort (fun a b => decide (a ≤ b))) 99 / 1000⟩ :
        Percentiles).count = staleEpochState.total_count from rfl, hc]
    norm_num
  · dsimp only
    rw [hmin, hkept]
    rw [show (([50] : List ℕ).mergeSort (fun a b => decide (a ≤ b))) = [50] by simp,
      percentile_singleton]
    rw [if_neg (by decide : (500 : ℕ) ≠ U64_MAX)]
    norm_num

open LockFreeLatencyHistogram in
/-- C1 (amended): for a single epoch — any non-empty sequence of record(ns)
calls starting from a fresh histogram followed by one drain — the returned
tuple has count > 0 and satisfies 0 ≤ min_us ≤ p50_us ≤ p95_us ≤ p99_us ≤
max_us, and after any drain a further drain with no intervening records
returns count = 0.  Across repeated record/drain epochs the ordering chain
can fail (see the counterexample), because the drain reads slots
0..min(count, SAMPLE_SLOTS) while write_idx is never reset. -/
theorem C1_single_epoch_percentiles (ws : List ℕ) (hne : ws ≠ []) :
    (0 < (get_percentiles_and_reset (recordAll new ws)).2.count ∧
     0 ≤ (get_percentiles_and_reset (recordAll new ws)).2.min_us ∧
     (get_percentiles_and_reset (recordAll new ws)).2.min_us ≤
       (get_percentiles_and_reset (recordAll new ws)).2.p50_us ∧
     (get_percentiles_and_reset (recordAll new ws)).2.p50_us ≤
       (get_percentiles_and_reset (recordAll new ws)).2.p95_us ∧
     (get_percentiles_and_reset (recordAll new ws)).2.p95_us ≤
       (get_percentiles_and_reset (recordAll new ws)).2.p99_us ∧
     (get_percentiles_and_reset (recordAll new ws)).2.p99_us ≤
       (get_percentiles_and_reset (recordAll new ws)).2.max_us) ∧
    (∀ g : LockFreeLatencyHistogram,
      (get_percentiles_and_reset (get_percentiles_and_reset g).1).2.count = 0) := by
  refine ⟨?_, fun g => drain_drain_count g⟩
  have hcnt : (recordAll new ws).total_count = ws.length := by
    rw [recordAll_total_count]
    simp [new]
  have hc0 : (recordAll new ws).total_count ≠ 0 := by
    rw [hcnt]
    exact fun h => hne (List.length_eq_zero.mp h)
  have hpos : 0 < ws.length := List.length_pos.mpr hne
  by_cases hk : collectedSamples (recordAll new ws) = []
  · rw [drain_spec_empty _ hc0 hk]
    dsimp only
    exact ⟨by rw [hcnt]; exact hpos, le_refl 0, le_refl 0, le_refl 0, le_refl 0, le_refl 0⟩
  · rw [drain_spec _ hc0 hk]
    dsimp only
    have hsort : List.Sorted (· ≤ ·)
        ((collectedSamples (recordAll new ws)).mergeSort (fun a b => decide (a ≤ b))) :=
      List.sorted_mergeSort' _
    have hsne : (collectedSamples (recordAll new ws)).mergeSort (fun a b => decide (a ≤ b)) ≠ [] := by
      intro hemp
      have hperm := List.mergeSort_perm (collectedSamples (recordAll new ws))
        (fun a b => decide (a ≤ b))
      rw [hemp] at hperm
      exact hk (List.Perm.eq_nil hperm.symm)
    have hlen : 0 < ((collectedSamples (recordAll new ws)).mergeSort
        (fun a b => decide (a ≤ b))).length := List.length_pos.mpr hsne
    have hhead : ((collectedSamples (recordAll new ws)).mergeSort
        (fun a b => decide (a ≤ b))).getD 0 0 ∈
        (collectedSamples (recordAll new ws)).mergeSort (fun a b => decide (a ≤ b)) := by
      rw [List.getD_eq_getElem _ 0 hlen]
      exact List.getElem_mem hlen
    have hlast : ((collectedSamples (recordAll new ws)).mergeSort
        (fun a b => decide (a ≤ b))).getD
          (((collectedSamples (recordAll new ws)).mergeSort
            (fun a b => decide (a ≤ b))).length - 1) 0 ∈
        (collectedSamples (recordAll new ws)).mergeSort (fun a b => decide (a ≤ b)) := by
      rw [List.getD_eq_getElem _ 0 (by omega)]
      exact List.getElem_mem (by omega)
    have hb50 := @percentile_bounds _ hsne hsort 50 (by norm_num) (by norm_num)
    have hb99 := @percentile_bounds _ hsne hsort 99 (by norm_num) (by norm_num)
    have h50_95 := @percentile_mono _ hsne hsort 50 95 (by norm_num) (by norm_num) (by norm_num)
    have h95_99 := @percentile_mono _ hsne hsort 95 99 (by norm_num) (by norm_num) (by norm_num)
    have hmin_head : (recordAll new ws).min_ns ≤
        ((collectedSamples (recordAll new ws)).mergeSort (fun a b => decide (a ≤ b))).getD 0 0 :=
      recordAll_min_le ws new _ (mem_sorted_of_fresh ws hhead).1
    have hmax_last : ((collectedSamples (recordAll new ws)).mergeSort
        (fun a b => decide (a ≤ b))).getD
          (((collectedSamples (recordAll new ws)).mergeSort
            (fun a b => decide (a ≤ b))).length - 1) 0 ≤ (recordAll new ws).max_ns :=
      recordAll_max_ge ws new _ (mem_sorted_of_fresh ws hlast).1
    have h1000 : (0:ℚ) < 1000 := by norm_num
    refine ⟨by rw [hcnt]; exact hpos, ?_, ?_, ?_, ?_, ?_⟩
    · split_ifs with hM
      · exact le_refl 0
      · positivity
    · split_ifs with hM
      · refine div_nonneg (le_trans ?_ hb50.1) (by norm_num)
        positivity
      · refine (div_le_div_right h1000).mpr (le_trans ?_ hb50.1)
        exact_mod_cast hmin_head
    · exact (div_le_div_right h1000).mpr h50_95
    · exact (div_le_div_right h1000).mpr h95_99
    · refine (div_le_div_right h1000).mpr (le_trans hb99.2 ?_)
      exact_mod_cast hmax_last

open LockFreeLatencyHistogram in
/-- Concrete instantiation of the amended C1 for the single record 7 followed
by one drain. -/
theorem C1_single_epoch_percentiles_witness :
    (([7] : List ℕ) ≠ []) ∧
    ((0 < (get_percentiles_and_reset (recordAll new [7])).2.count ∧
      0 ≤ (get_percentiles_and_reset (recordAll new [7])).2.min_us ∧
      (get_percentiles_and_reset (recordAll new [7])).2.min_us ≤
        (get_percentiles_and_reset (recordAll new [7])).2.p50_us ∧
      (get_percentiles_and_reset (recordAll new [7])).2.p50_us ≤
        (get_percentiles_and_reset (recordAll new [7])).2.p95_us ∧
      (get_percentiles_and_reset (recordAll new [7])).2.p95_us ≤
        (get_percentiles_and_reset (recordAll new [7])).2.p99_us ∧
      (get_percentiles_and_reset (recordAll new [7])).2.p99_us ≤
        (get_percentiles_and_reset (recordAll new [7])).2.max_us) ∧
     (∀ g : LockFreeLatencyHistogram,
       (get_percentiles_and_reset (get_percentiles_and_reset g).1).2.count = 0)) :=
  ⟨by decide, C1_single_epoch_percentiles [7] (by decide)⟩

/-! Migration controller (redis-observer `main.rs`): the `MigrationStatus`
enum and the `ApiEvent::MigrationStatusUpdate` arm of `process_api_events`. -/

/-- `MigrationStatus` from redis-observer `main.rs`. -/
inductive MigrationStatus
  | NotSetup
  | Pending
  | Testing
  | Ready
  | Running
  | PartialFailure
  | Failed
  | Paused
  | Cancelled
  | Completed
  | RollingBack
  | RolledBack
deriving DecidableEq, Fintype

namespace MigrationStatus

/-- The `current_is_protected` matches! of the `MigrationStatusUpdate` arm:
Completed, Failed, Cancelled, RolledBack or RollingBack. -/
def current_is_protected (s : MigrationStatus) : Bool :=
  match s with
  | Completed | Failed | Cancelled | RolledBack | RollingBack => true
  | _ => false

/-- The `new_is_non_terminal` matches! of the `MigrationStatusUpdate` arm:
Pending, Testing, Ready or Running — note Paused, PartialFailure and
NotSetup are NOT in this list. -/
def new_is_non_terminal (s : MigrationStatus) : Bool :=
  match s with
  | Pending | Testing | Ready | Running => true
  | _ => false

/-- The `is_pre_running` matches! of the `MigrationStatusUpdate` arm. -/
def is_pre_running (s : MigrationStatus) : Bool :=
  match s with
  | Pending | Testing | Ready => true
  | _ => false

/-- The stored status after `process_api_events` handles
`ApiEvent::MigrationStatusUpdate { status, force }` with stored status
`current`: with force the update always lands; otherwise it is skipped iff
(protected current ∧ non-terminal incoming) or (Running downgraded to a
pre-running status). -/
def processMigrationStatusUpdate (current status : MigrationStatus) (force : Bool) :
    MigrationStatus :=
  let should_skip :=
    if force then false
    else
      (current_is_protected current && new_is_non_terminal status) ||
        (decide (current = Running) && is_pre_running status)
  if should_skip then current else status

end MigrationStatus

/-- C2 refutation: a MigrationStatusUpdate with force = false carrying the
non-terminal status Paused DOES overwrite the terminal stored status
Completed, because the code's `new_is_non_terminal` list contains only
Pending, Testing, Ready and Running. -/
theorem C2_paused_overwrites_terminal_counterexample :
    MigrationStatus.processMigrationStatusUpdate MigrationStatus.Completed
        MigrationStatus.Paused false = MigrationStatus.Paused ∧
    MigrationStatus.Paused ≠ MigrationStatus.Completed := by
  decide

/-- C2 (amended): for a MigrationStatusUpdate with force = false, a terminal
current status (Completed, Failed, Cancelled, RolledBack, RollingBack) is
protected exactly against the four incoming statuses Pending, Testing,
Ready, Running — an incoming Paused, PartialFailure or NotSetup overwrites
it; an incoming Pending, Testing or Ready never replaces a current Running;
and force = true always overwrites. -/
theorem C2_stale_status_protection (current status : MigrationStatus) :
    (MigrationStatus.current_is_protected current = true →
      MigrationStatus.new_is_non_terminal status = true →
      MigrationStatus.processMigrationStatusUpdate current status false = current) ∧
    (current = MigrationStatus.Running →
      MigrationStatus.is_pre_running status = true →
      MigrationStatus.processMigrationStatusUpdate current status false = current) ∧
    (MigrationStatus.new_is_non_terminal status = false →
      MigrationStatus.is_pre_running status = false →
      MigrationStatus.processMigrationStatusUpdate current status false = status) ∧
    MigrationStatus.processMigrationStatusUpdate current status true = status := by
  revert current status
  decide

/-- Concrete instantiations of the amended C2: Completed survives a polled
Pending; Running survives a polled Testing; Completed is overwritten by a
polled Paused; force overwrites Completed with Pending. -/
theorem C2_stale_status_protection_witness :
    (MigrationStatus.processMigrationStatusUpdate MigrationStatus.Completed
        MigrationStatus.Pending false = MigrationStatus.Completed) ∧
    (MigrationStatus.processMigrationStatusUpdate MigrationStatus.Running
        MigrationStatus.Testing false = MigrationStatus.Running) ∧
    (MigrationStatus.processMigrationStatusUpdate MigrationStatus.Completed
        MigrationStatus.Paused false = MigrationStatus.Paused) ∧
    (MigrationStatus.processMigrationStatusUpdate MigrationStatus.Completed
        MigrationStatus.Pending true = MigrationStatus.Pending) :=
  ⟨(C2_stale_status_protection MigrationStatus.Completed MigrationStatus.Pending).1
      (by decide) (by decide),
   (C2_stale_status_protection MigrationStatus.Running MigrationStatus.Testing).2.1
      rfl (by decide),
   (C2_stale_status_protection MigrationStatus.Completed MigrationStatus.Paused).2.2.1
      (by decide) (by decide),
   (C2_stale_status_protection MigrationStatus.Completed MigrationStatus.Pending).2.2.2⟩

/-! Storage backends (`analytics-demo/src/storage.rs`): the commands each
operation issues are modelled as an explicit trace; keys are lists of
characters; the metrics sink records `(operation, result)` labels (the
duration argument is wall-clock time and is not modelled). -/

/-- Redis commands issued by the modelled backends. -/
inductive RedisCmd
  | setex (key value : List Char) (ttl : ℕ)
  | get (key : List Char)
  | incr (key : List Char) (delta : ℤ)
  | del (key : List Char)
  | hget (key field : List Char)
  | hset (key field value : List Char)
  | hincrby (key field : List Char) (delta : ℤ)
  | hdel (key field : List Char)
  | expire (key : List Char) (ttl : ℕ)
  | setbit (key : List Char) (offset : ℕ) (bit : ℕ)
  | getbit (key : List Char) (offset : ℕ)
  | bitcount (key : List Char)
deriving DecidableEq

/-- One `record_cache_operation(op, result, duration)` call, without the
wall-clock duration. -/
structure MetricsEvent where
  operation : String
  result : String
deriving DecidableEq

/-- `str::rsplit_once(sep)`: split at the LAST occurrence of `sep`,
returning the part before and the part after, or `none` if `sep` does not
occur. -/
def rsplitOnce (sep : Char) : List Char → Option (List Char × List Char)
  | [] => none
  | c :: cs =>
    match rsplitOnce sep cs with
    | some (base, rest) => some (c :: base, rest)
    | none => if c = sep then some ([], cs) else none

/-- `rsplit_once` returns `none` exactly when the separator is absent. -/
theorem rsplitOnce_none_iff (sep : Char) (s : List Char) :
    rsplitOnce sep s = none ↔ sep ∉ s := by
  induction s with
  | nil => simp [rsplitOnce]
  | cons c cs ih =>
    simp only [rsplitOnce]
    cases hcs : rsplitOnce sep cs with
    | some p =>
      have hmem : sep ∈ cs := by
        by_contra hnot
        rw [ih.mpr hnot] at hcs
        exact Option.noConfusion hcs
      simp [List.mem_cons, hmem]
    | none =>
      by_cases hc : c = sep
      · simp [hc]
      · have hnot : sep ∉ cs := ih.mp hcs
        simp [if_neg hc, List.mem_cons, hnot]
        exact fun h => hc h.symm

/-- When `rsplit_once` succeeds, it has split the input at the LAST
occurrence of the separator: the input is `before ++ sep :: after` and the
separator does not occur in `after`. -/
theorem rsplitOnce_some_spec (sep : Char) : ∀ (s b r : List Char),
    rsplitOnce sep s = some (b, r) → s = b ++ sep :: r ∧ sep ∉ r := by
  intro s
  induction s with
  | nil => intro b r h; exact Option.noConfusion h
  | cons c cs ih =>
    intro b r h
    simp only [rsplitOnce] at h
    cases hcs : rsplitOnce sep cs with
    | some p =>
      obtain ⟨b', r'⟩ := p
      rw [hcs] at h
      simp only [Option.some.injEq, Prod.mk.injEq] at h
      obtain ⟨hb, hr⟩ := h
      obtain ⟨h1, h2⟩ := ih b' r' hcs
      subst hb
      subst hr
      exact ⟨by rw [h1]; rfl, h2⟩
    | none =>
      rw [hcs] at h
      by_cases hc : c = sep
      · rw [if_pos hc] at h
        simp only [Option.some.injEq, Prod.mk.injEq] at h
        obtain ⟨hb, hr⟩ := h
        subst hb
        subst hr
        exact ⟨by rw [hc]; rfl, (rsplitOnce_none_iff sep cs).mp hcs⟩
      · rw [if_neg hc] at h
        exact Option.noConfusion h

namespace json_storage

/-- `JsonStorage::set_batch_json`: on empty input return Ok before any
timing or metrics; otherwise pipeline one SETEX per entry and record one
`batch_set` metrics event whose result depends on the pipeline outcome
(`pipelineOk`). -/
def set_batch_json (entries : List (List Char × List Char × ℕ)) (pipelineOk : Bool) :
    Except Unit Unit × List RedisCmd × List MetricsEvent :=
  if entries.isEmpty then (Except.ok (), [], [])
  else
    let cmds := entries.map fun e => RedisCmd.setex e.1 e.2.1 e.2.2
    if pipelineOk then (Except.ok (), cmds, [⟨"batch_set", "success"⟩])
    else (Except.error (), cmds, [⟨"batch_set", "error"⟩])

/-- `JsonStorage::incr_batch`: empty guard, then one pipelined INCR 1 per
key and one `batch_incr` metrics event. -/
def incr_batch (keys : List (List Char)) (pipelineOk : Bool) :
    Except Unit Unit × List RedisCmd × List MetricsEvent :=
  if keys.isEmpty then (Except.ok (), [], [])
  else
    let cmds := keys.map fun k => RedisCmd.incr k 1
    if pipelineOk then (Except.ok (), cmds, [⟨"batch_incr", "success"⟩])
    else (Except.error (), cmds, [⟨"batch_incr", "error"⟩])

/-- `JsonStorage::del_batch`: empty guard, then one pipelined DEL per key
and one `batch_del` metrics event. -/
def del_batch (keys : List (List Char)) (pipelineOk : Bool) :
    Except Unit Unit × List RedisCmd × List MetricsEvent :=
  if keys.isEmpty then (Except.ok (), [], [])
  else
    let cmds := keys.map fun k => RedisCmd.del k
    if pipelineOk then (Except.ok (), cmds, [⟨"batch_del", "success"⟩])
    else (Except.error (), cmds, [⟨"batch_del", "error"⟩])

end json_storage

/-- C3 refutation: the empty-input guard of `set_batch_json` returns
`Ok(())` before `Instant::now()` and before any `record_cache_operation`
call, so the metrics trace of an empty batch has zero events, not one. -/
theorem C3_empty_batch_counterexample :
    (json_storage.set_batch_json [] true).1 = Except.ok () ∧
    (json_storage.set_batch_json [] true).2.1 = [] ∧
    ¬ ((json_storage.set_batch_json [] true).2.2.length = 1) := by
  refine ⟨rfl, rfl, ?_⟩
  decide

/-- C3 (amended): for the JSON storage backend, every `_batch` operation
with empty input returns success, issues no Redis command and records NO
metrics event (the guard returns before the metrics sink is touched); the
same guard is shared verbatim by all nine backends. -/
theorem C3_empty_batch_silent_success (pipelineOk : Bool) :
    json_storage.set_batch_json [] pipelineOk = (Except.ok (), [], []) ∧
    json_storage.incr_batch [] pipelineOk = (Except.ok (), [], []) ∧
    json_storage.del_batch [] pipelineOk = (Except.ok (), [], []) := by
  refine ⟨rfl, rfl, rfl⟩

namespace hash_storage

/-- `HashStorage::split_key`: split at the last ':' into (hash_key, field);
with no separator the whole key is the hash key and the field is
`"default"`. -/
def split_key (key : List Char) : List Char × List Char :=
  match rsplitOnce ':' key with
  | some (base, field) => (base, field)
  | none => (key, "default".data)

/-- Commands issued by `HashStorage::get`: one HGET. -/
def get (key : List Char) : List RedisCmd :=
  [RedisCmd.hget (split_key key).1 (split_key key).2]

/-- Commands issued by `HashStorage::set`: pipelined HSET + EXPIRE. -/
def set (key value : List Char) (ttl_seconds : ℕ) : List RedisCmd :=
  [RedisCmd.hset (split_key key).1 (split_key key).2 value,
   RedisCmd.expire (split_key key).1 ttl_seconds]

/-- Commands issued by `HashStorage::set_batch_json`: per entry, pipelined
HSET + EXPIRE (after the shared empty guard). -/
def set_batch_json (entries : List (List Char × List Char × ℕ)) : List RedisCmd :=
  entries.flatMap fun e =>
    [RedisCmd.hset (split_key e.1).1 (split_key e.1).2 e.2.1,
     RedisCmd.expire (split_key e.1).1 e.2.2]

/-- Commands issued by `HashStorage::incr`: one HINCRBY 1. -/
def incr (key : List Char) : List RedisCmd :=
  [RedisCmd.hincrby (split_key key).1 (split_key key).2 1]

/-- Commands issued by `HashStorage::incr_batch`: one pipelined HINCRBY 1
per key (after the shared empty guard). -/
def incr_batch (keys : List (List Char)) : List RedisCmd :=
  keys.map fun k => RedisCmd.hincrby (split_key k).1 (split_key k).2 1

/-- Commands issued by `HashStorage::del`: one HDEL. -/
def del (key : List Char) : List RedisCmd :=
  [RedisCmd.hdel (split_key key).1 (split_key key).2]

/-- Commands issued by `HashStorage::del_batch`: one pipelined HDEL per key
(after the shared empty guard). -/
def del_batch (keys : List (List Char)) : List RedisCmd :=
  keys.map fun k => RedisCmd.hdel (split_key k).1 (split_key k).2

end hash_storage

/-- C9: under the hash backend, every key containing a ':' is split at its
LAST ':' into (hash_key, field) — the key is hash_key ++ ':' ++ field with
no ':' in the field — and a key with no ':' routes to the whole key with the
literal field "default"; all seven operations address the pair produced by
`split_key` (the batch forms shown on a singleton batch). -/
theorem C9_hash_split_key_routing (key : List Char) :
    (':' ∈ key →
      key = (hash_storage.split_key key).1 ++ ':' :: (hash_storage.split_key key).2 ∧
      ':' ∉ (hash_storage.split_key key).2) ∧
    (':' ∉ key → hash_storage.split_key key = (key, "default".data)) ∧
    hash_storage.get key =
      [RedisCmd.hget (hash_storage.split_key key).1 (hash_storage.split_key key).2] ∧
    (∀ value ttl, hash_storage.set key value ttl =
      [RedisCmd.hset (hash_storage.split_key key).1 (hash_storage.split_key key).2 value,
       RedisCmd.expire (hash_storage.split_key key).1 ttl]) ∧
    (∀ value ttl, hash_storage.set_batch_json [(key, value, ttl)] =
      [RedisCmd.hset (hash_storage.split_key key).1 (hash_storage.split_key key).2 value,
       RedisCmd.expire (hash_storage.split_key key).1 ttl]) ∧
    hash_storage.incr key =
      [RedisCmd.hincrby (hash_storage.split_key key).1 (hash_storage.split_key key).2 1] ∧
    hash_storage.incr_batch [key] =
      [RedisCmd.hincrby (hash_storage.split_key key).1 (hash_storage.split_key key).2 1] ∧
    hash_storage.del key =
      [RedisCmd.hdel (hash_storage.split_key key).1 (hash_storage.split_key key).2] ∧
    hash_storage.del_batch [key] =
      [RedisCmd.hdel (hash_storage.split_key key).1 (hash_storage.split_key key).2] := by
  refine ⟨?_, ?_, rfl, fun v t => rfl, fun v t => rfl, rfl, rfl, rfl, rfl⟩
  · intro hmem
    cases hsplit : rsplitOnce ':' key with
    | none => exact absurd hmem ((rsplitOnce_none_iff ':' key).mp hsplit)
    | some p =>
      obtain ⟨b, f⟩ := p
      obtain ⟨h1, h2⟩ := rsplitOnce_some_spec ':' key b f hsplit
      have hsk : hash_storage.split_key key = (b, f) := by
        simp [hash_storage.split_key, hsplit]
      rw [hsk]
      exact ⟨h1, h2⟩
  · intro hnot
    simp [hash_storage.split_key, (rsplitOnce_none_iff ':' key).mpr hnot]

/-- Concrete instantiation of C9: the key "a:b:c" splits into hash key "a:b"
and field "c", and the key "plain" (no separator) routes to field
"default". -/
theorem C9_hash_split_key_routing_witness :
    (hash_storage.split_key ("a:b:c".data) = ("a:b".data, "c".data)) ∧
    (':' ∈ "a:b:c".data ∧
      "a:b:c".data = (hash_storage.split_key "a:b:c".data).1 ++ ':' ::
        (hash_storage.split_key "a:b:c".data).2 ∧
      ':' ∉ (hash_storage.split_key "a:b:c".data).2) ∧
    (':' ∉ "plain".data ∧
      hash_storage.split_key "plain".data = ("plain".data, "default".data)) := by
  refine ⟨by decide, ⟨by decide, (C9_hash_split_key_routing "a:b:c".data).1 (by decide)⟩,
    by decide, (C9_hash_split_key_routing "plain".data).2.1 (by decide)⟩

namespace bitmap_storage

/-- `str::parse::<u32>()`: an optional leading '+', then at least one ASCII
digit, with the value fitting in 32 bits. -/
def parse_u32 (s : List Char) : Option ℕ :=
  let digits := match s with
    | '+' :: rest => rest
    | _ => s
  if digits ≠ [] ∧ digits.all Char.isDigit then
    let v := digits.foldl (fun a c => a * 10 + (c.toNat - '0'.toNat)) 0
    if v < 2 ^ 32 then some v else none
  else none

/-- `BitmapStorage::split_key`: split at the last ':' into (bitmap_key,
offset), parsing the suffix as u32 with `unwrap_or(0)`; with no separator
the offset is 0. -/
def split_key (key : List Char) : List Char × ℕ :=
  match rsplitOnce ':' key with
  | some (base, offStr) => (base, (parse_u32 offStr).getD 0)
  | none => (key, 0)

/-- `BitmapStorage::incr`, with the Redis bitmap contents supplied as the
set of set-bit offsets per bitmap key: it issues a single BITCOUNT on the
bitmap key (the parsed offset is discarded) and returns the number of set
bits. -/
def incr (key : List Char) (bits : List Char → Finset ℕ) : ℤ × List RedisCmd :=
  (((bits (split_key key).1).card : ℤ), [RedisCmd.bitcount (split_key key).1])

end bitmap_storage

/-- C8: under the bitmap backend, `incr` performs no Redis INCR: it splits
the key at the last ':' into (bitmap_key, offset) — for a key containing
':' the key is bitmap_key ++ ':' ++ suffix with the offset parsed from the
suffix — issues BITCOUNT on bitmap_key alone (the offset is ignored), and
returns the number of set bits of that bitmap. -/
theorem C8_bitmap_incr_is_bitcount (key : List Char) (bits : List Char → Finset ℕ) :
    (bitmap_storage.incr key bits).2 =
      [RedisCmd.bitcount (bitmap_storage.split_key key).1] ∧
    (∀ c ∈ (bitmap_storage.incr key bits).2, ∀ k d, c ≠ RedisCmd.incr k d) ∧
    (bitmap_storage.incr key bits).1 =
      ((bits (bitmap_storage.split_key key).1).card : ℤ) ∧
    (':' ∈ key → ∃ offStr,
      key = (bitmap_storage.split_key key).1 ++ ':' :: offStr ∧
      ':' ∉ offStr ∧
      (bitmap_storage.split_key key).2 = (bitmap_storage.parse_u32 offStr).getD 0) ∧
    (':' ∉ key → bitmap_storage.split_key key = (key, 0)) := by
  refine ⟨rfl, ?_, rfl, ?_, ?_⟩
  · intro c hc k d
    simp only [bitmap_storage.incr, List.mem_singleton] at hc
    subst hc
    exact fun h => RedisCmd.noConfusion h
  · intro hmem
    cases hsplit : rsplitOnce ':' key with
    | none => exact absurd hmem ((rsplitOnce_none_iff ':' key).mp hsplit)
    | some p =>
      obtain ⟨b, f⟩ := p
      obtain ⟨h1, h2⟩ := rsplitOnce_some_spec ':' key b f hsplit
      have hsk : bitmap_storage.split_key key = (b, (bitmap_storage.parse_u32 f).getD 0) := by
        simp [bitmap_storage.split_key, hsplit]
      refine ⟨f, ?_, h2, ?_⟩
      · rw [hsk]; exact h1
      · rw [hsk]
  · intro hnot
    simp [bitmap_storage.split_key, (rsplitOnce_none_iff ':' key).mpr hnot]

/-- Concrete instantiation of C8: on key "user:active:12" with the bitmap
"user:active" holding set bits {1, 3, 6}, `incr` issues only a BITCOUNT and
returns 3. -/
theorem C8_bitmap_incr_is_bitcount_witness :
    (bitmap_storage.incr "user:active:12".data
        (fun k => if k = "user:active".data then ({1, 3, 6} : Finset ℕ) else ∅) =
      (3, [RedisCmd.bitcount "user:active".data])) ∧
    (':' ∈ "user:active:12".data ∧ ∃ offStr,
      "user:active:12".data = (bitmap_storage.split_key "user:active:12".data).1 ++ ':' :: offStr ∧
      ':' ∉ offStr ∧
      (bitmap_storage.split_key "user:active:12".data).2 =
        (bitmap_storage.parse_u32 offStr).getD 0) ∧
    bitmap_storage.split_key "user:active:12".data = ("user:active".data, 12) := by
  refine ⟨by decide, ⟨by decide, (C8_bitmap_incr_is_bitcount "user:active:12".data
    (fun k => if k = "user:active".data then ({1, 3, 6} : Finset ℕ) else ∅)).2.2.2.1
      (by decide)⟩, by decide⟩

/-! Connection pool (`storage.rs`): connections are modelled by their
indices; a Rust panic (out-of-bounds index, remainder by zero) is modelled
as `none`.  The Redis I/O of `new` (client open, connection creation, PING)
is taken as succeeding, which isolates the control flow the claim is
about. -/

/-- `RedisConnectionPool`: the multiplexed connections and their count. -/
structure RedisConnectionPool where
  connections : List ℕ
  conn_count : ℕ

namespace RedisConnectionPool

/-- `RedisConnectionPool::new` with all Redis I/O succeeding: build
`pool_size` connections, then clone `connections[0]` for the PING test —
an out-of-bounds panic (`none`) when `pool_size = 0`. -/
def new (pool_size : ℕ) : Option RedisConnectionPool :=
  let connections := List.range pool_size
  match connections[0]? with
  | none => none
  | some _ => some { connections := connections, conn_count := pool_size }

/-- `RedisConnectionPool::get_conn` at a given round-robin counter value:
`counter % conn_count` panics (`none`) when `conn_count = 0`, otherwise
indexes the connection vector. -/
def get_conn (p : RedisConnectionPool) (counter : ℕ) : Option ℕ :=
  if p.conn_count = 0 then none
  else p.connections[counter % p.conn_count]?

end RedisConnectionPool

/-- C10: the pool has the unstated precondition pool_size ≥ 1: `new 0`
panics (indexing connections[0] on an empty vector), `get_conn` on a
zero-sized pool panics (remainder by conn_count = 0), and for every
pool_size ≥ 1 `new` yields a pool on which `get_conn` is total, returning
the connection at index counter % pool_size. -/
theorem C10_pool_size_precondition :
    RedisConnectionPool.new 0 = none ∧
    (∀ p : RedisConnectionPool, p.conn_count = 0 → ∀ c, p.get_conn c = none) ∧
    (∀ n : ℕ, 1 ≤ n → ∀ counter : ℕ, ∃ pool : RedisConnectionPool,
      RedisConnectionPool.new n = some pool ∧
      pool.get_conn counter = some (counter % n)) := by
  refine ⟨rfl, ?_, ?_⟩
  · intro p hp c
    simp [RedisConnectionPool.get_conn, hp]
  · intro n hn counter
    refine ⟨⟨List.range n, n⟩, ?_, ?_⟩
    · simp only [RedisConnectionPool.new]
      rw [List.getElem?_range (by omega : 0 < n)]
    · simp only [RedisConnectionPool.get_conn]
      rw [if_neg (by omega)]
      exact List.getElem?_range (Nat.mod_lt counter (by omega))

/-- Concrete instantiation of C10: a pool of size 3 serves counter 7 with
connection index 1; the zero pool panics. -/
theorem C10_pool_size_precondition_witness :
    RedisConnectionPool.new 0 = none ∧
    ((⟨[], 0⟩ : RedisConnectionPool).conn_count = 0 ∧
      (⟨[], 0⟩ : RedisConnectionPool).get_conn 5 = none) ∧
    (1 ≤ 3 ∧ ∃ pool : RedisConnectionPool,
      RedisConnectionPool.new 3 = some pool ∧
      pool.get_conn 7 = some (7 % 3)) :=
  ⟨C10_pool_size_precondition.1,
   ⟨rfl, C10_pool_size_precondition.2.1 ⟨[], 0⟩ rfl 5⟩,
   ⟨by norm_num, C10_pool_size_precondition.2.2 3 (by norm_num) 7⟩⟩

/-! Validator (`analytics-demo/src/validation.rs`): the per-call PRNG draw
of `rand::thread_rng().gen::<f64>()` (uniform in [0, 1)) is passed in
explicitly. -/

/-- `DataValidator`: the clamped sampling rate (the metrics handle carries
no state relevant here). -/
structure DataValidator where
  sample_rate : ℚ

namespace DataValidator

/-- `DataValidator::new`: clamp the configured rate into [0, 1]
(`sample_rate.clamp(0.0, 1.0)`). -/
def new (sample_rate : ℚ) : DataValidator :=
  ⟨min (max sample_rate 0) 1⟩

/-- `DataValidator::should_validate` at a given PRNG draw: rates ≥ 1 always
validate, rates ≤ 0 never, otherwise a Bernoulli trial `draw < rate`. -/
def should_validate (v : DataValidator) (draw : ℚ) : Bool :=
  if 1 ≤ v.sample_rate then true
  else if v.sample_rate ≤ 0 then false
  else decide (draw < v.sample_rate)

end DataValidator

/-- C7: `DataValidator::new` clamps its rate into [0, 1]; `should_validate`
returns false on every call when the clamped rate is ≤ 0, true on every
call when it is ≥ 1, and for intermediate rates returns true exactly when
the per-call draw is strictly below the rate. -/
theorem C7_validator_bernoulli (rate : ℚ) :
    0 ≤ (DataValidator.new rate).sample_rate ∧
    (DataValidator.new rate).sample_rate ≤ 1 ∧
    ((DataValidator.new rate).sample_rate ≤ 0 →
      ∀ draw : ℚ, (DataValidator.new rate).should_validate draw = false) ∧
    (1 ≤ (DataValidator.new rate).sample_rate →
      ∀ draw : ℚ, (DataValidator.new rate).should_validate draw = true) ∧
    (0 < (DataValidator.new rate).sample_rate →
      (DataValidator.new rate).sample_rate < 1 →
      ∀ draw : ℚ, (DataValidator.new rate).should_validate draw =
        decide (draw < (DataValidator.new rate).sample_rate)) := by
  refine ⟨?_, ?_, ?_, ?_, ?_⟩
  · simp only [DataValidator.new]
    exact le_min (le_max_right rate 0) (by norm_num)
  · exact min_le_right _ 1
  · intro h draw
    simp only [DataValidator.should_validate]
    split_ifs with h1
    · linarith
    · rfl
  · intro h draw
    simp only [DataValidator.should_validate]
    rw [if_pos h]
  · intro h0 h1 draw
    simp only [DataValidator.should_validate]
    rw [if_neg (by linarith), if_neg (by linarith)]

/-- Concrete instantiations of C7: rate 3/2 clamps to 1 and always
validates; rate -1 clamps to 0 and never validates; rate 1/2 validates the
draw 1/4 and rejects the draw 3/4. -/
theorem C7_validator_bernoulli_witness :
    ((DataValidator.new (3/2)).sample_rate = 1 ∧
      (DataValidator.new (3/2)).should_validate (9/10) = true) ∧
    ((DataValidator.new (-1)).sample_rate = 0 ∧
      (DataValidator.new (-1)).should_validate (1/10) = false) ∧
    ((DataValidator.new (1/2)).sample_rate = 1/2 ∧
      (DataValidator.new (1/2)).should_validate (1/4) = decide ((1:ℚ)/4 < (DataValidator.new (1/2)).sample_rate) ∧
      (DataValidator.new (1/2)).should_validate (3/4) = decide ((3:ℚ)/4 < (DataValidator.new (1/2)).sample_rate)) := by
  refine ⟨⟨?_, (C7_validator_bernoulli (3/2)).2.2.2.1 ?_ (9/10)⟩,
    ⟨?_, (C7_validator_bernoulli (-1)).2.2.1 ?_ (1/10)⟩,
    ⟨?_, (C7_validator_bernoulli (1/2)).2.2.2.2 ?_ ?_ (1/4),
      (C7_validator_bernoulli (1/2)).2.2.2.2 ?_ ?_ (3/4)⟩⟩ <;>
    norm_num [DataValidator.new]

/-! Complexity analyzer (`redis-complexity-analyzer/src/main.rs`):
`sample_key_types`.  The SCAN batches and the per-key Bernoulli decisions
(`rng.gen::<f64>() < config.sample_rate`) are passed in explicitly; the
result tracked is `distribution.total_sampled`. -/

namespace complexity_analyzer

/-- The target-sample computation of `sample_key_types`:
`((total_keys as f64 * rate) as usize).max(min_samples).min(max_samples).min(total_keys)`.
The `as usize` cast truncates and saturates negatives at zero, which
`Int.toNat ∘ Int.floor` reproduces. -/
def target_samples (total_keys : ℕ) (sample_rate : ℚ) (min_samples max_samples : ℕ) : ℕ :=
  min (min (max (Int.toNat ⌊(total_keys : ℚ) * sample_rate⌋) min_samples) max_samples)
    total_keys

/-- The inner per-batch loop of `sample_key_types`: walk the keys of one
SCAN batch, count each picked key, and stop (second component true) as soon
as the running total reaches the target. -/
def sampleBatch {α : Type} (pick : α → Bool) (target : ℕ) : List α → ℕ → ℕ × Bool
  | [], acc => (acc, false)
  | k :: ks, acc =>
    if pick k then
      if target ≤ acc + 1 then (acc + 1, true)
      else sampleBatch pick target ks (acc + 1)
    else sampleBatch pick target ks acc

/-- The outer SCAN loop of `sample_key_types`: process batches until the
target is reached or the cursor completes. -/
def scanLoop {α : Type} (pick : α → Bool) (target : ℕ) : List (List α) → ℕ → ℕ
  | [], acc => acc
  | b :: bs, acc =>
    match sampleBatch pick target b acc with
    | (acc1, true) => acc1
    | (acc1, false) => scanLoop pick target bs acc1

/-- `sample_key_types`, returning the final `total_sampled`: zero keys
short-circuit to an empty distribution; otherwise run the SCAN loop against
the computed target. -/
def sample_key_types {α : Type} (batches : List (List α)) (pick : α → Bool)
    (total_keys : ℕ) (sample_rate : ℚ) (min_samples max_samples : ℕ) : ℕ :=
  if total_keys = 0 then 0
  else scanLoop pick (target_samples total_keys sample_rate min_samples max_samples)
    batches 0

/-- The per-batch loop, entered below target, returns the capped count and
stops exactly when the cap is hit. -/
theorem sampleBatch_spec {α : Type} (pick : α → Bool) (target : ℕ) :
    ∀ (ks : List α) (acc : ℕ), acc < target →
      sampleBatch pick target ks acc =
        (min target (acc + ks.countP pick), decide (target ≤ acc + ks.countP pick)) := by
  intro ks
  induction ks with
  | nil =>
    intro acc h
    have h1 : min target acc = acc := min_eq_right (le_of_lt h)
    have h2 : decide (target ≤ acc) = false := decide_eq_false (by omega)
    simp [sampleBatch, h1, h2]
  | cons k ks ih =>
    intro acc h
    simp only [sampleBatch, List.countP_cons]
    by_cases hp : pick k = true
    · rw [if_pos hp]
      by_cases hstop : target ≤ acc + 1
      · rw [if_pos hstop]
        have hmin : min target (acc + (ks.countP pick + if pick k = true then 1 else 0))
            = acc + 1 := by
          rw [if_pos hp]; omega
        have hdec : decide (target ≤ acc + (ks.countP pick + if pick k = true then 1 else 0))
            = true := by
          rw [if_pos hp]; exact decide_eq_true (by omega)
        rw [hmin, hdec]
      · rw [if_neg hstop, ih (acc + 1) (by omega)]
        have harith : acc + 1 + ks.countP pick
            = acc + (ks.countP pick + if pick k = true then 1 else 0) := by
          rw [if_pos hp]; omega
        rw [harith]
    · rw [if_neg hp, ih acc h]
      have harith : acc + ks.countP pick
          = acc + (ks.countP pick + if pick k = true then 1 else 0) := by
        rw [if_neg hp]; omega
      rw [harith]

/-- The SCAN loop, entered below target, returns the number of picked keys
capped at the target. -/
theorem scanLoop_spec {α : Type} (pick : α → Bool) (target : ℕ) :
    ∀ (bs : List (List α)) (acc : ℕ), acc < target →
      scanLoop pick target bs acc =
        min target (acc + (bs.map (fun b => b.countP pick)).sum) := by
  intro bs
  induction bs with
  | nil =>
    intro acc h
    simp only [scanLoop, List.map_nil, List.sum_nil, Nat.add_zero]
    omega
  | cons b bs ih =>
    intro acc h
    simp only [scanLoop, List.map_cons, List.sum_cons]
    rw [sampleBatch_spec pick target b acc h]
    by_cases hstop : target ≤ acc + b.countP pick
    · rw [decide_eq_true hstop]
      dsimp only
      omega
    · rw [decide_eq_false hstop]
      dsimp only
      rw [min_eq_right (by omega), ih (acc + b.countP pick) (by omega)]
      congr 1
      omega

end complexity_analyzer

/-- C6: the analyzer's target sample count equals
clamp(⌊N·rate⌋, min_samples, min(max_samples, N)) — identically the code's
min(min(max(⌊N·rate⌋, min_samples), max_samples), N) — and sampling stops
once total_sampled reaches the target or the SCAN cursor completes: the
final total_sampled is the number of picked keys capped at the target. -/
theorem C6_analyzer_target_and_stop (total_keys : ℕ) (sample_rate : ℚ)
    (min_samples max_samples : ℕ) (batches : List (List ℕ)) (pick : ℕ → Bool)
    (htarget : 1 ≤ complexity_analyzer.target_samples total_keys sample_rate
      min_samples max_samples)
    (h0 : total_keys ≠ 0) :
    complexity_analyzer.target_samples total_keys sample_rate min_samples max_samples =
      min (max (Int.toNat ⌊(total_keys : ℚ) * sample_rate⌋) min_samples)
        (min max_samples total_keys) ∧
    complexity_analyzer.sample_key_types batches pick total_keys sample_rate
        min_samples max_samples =
      min (complexity_analyzer.target_samples total_keys sample_rate min_samples
          max_samples)
        ((batches.map (fun b => b.countP pick)).sum) := by
  constructor
  · unfold complexity_analyzer.target_samples
    omega
  · unfold complexity_analyzer.sample_key_types
    rw [if_neg h0, complexity_analyzer.scanLoop_spec pick _ batches 0 (by omega)]
    rw [Nat.zero_add]

/-- Concrete instantiation of C6: DBSIZE 100, rate 1/10, min 5, max 50
yields target 10, and a single 20-key batch with every key picked samples
exactly 10 keys. -/
theorem C6_analyzer_target_and_stop_witness :
    (1 ≤ complexity_analyzer.target_samples 100 (1/10) 5 50 ∧ (100 : ℕ) ≠ 0) ∧
    (complexity_analyzer.target_samples 100 (1/10) 5 50 =
        min (max (Int.toNat ⌊((100 : ℕ) : ℚ) * (1/10)⌋) 5) (min 50 100) ∧
      complexity_analyzer.sample_key_types [List.range 20] (fun _ => true)
          100 (1/10) 5 50 =
        min (complexity_analyzer.target_samples 100 (1/10) 5 50)
          (([List.range 20].map (fun b => b.countP (fun _ => true))).sum)) ∧
    complexity_analyzer.target_samples 100 (1/10) 5 50 = 10 ∧
    complexity_analyzer.sample_key_types [List.range 20] (fun _ => true)
      100 (1/10) 5 50 = 10 := by
  have hfl : (⌊((100 : ℕ) : ℚ) * (1/10)⌋ : ℤ) = 10 := by
    rw [show ((100 : ℕ) : ℚ) * (1/10) = ((10 : ℕ) : ℚ) by norm_num]
    exact Int.floor_natCast 10
  have htv : complexity_analyzer.target_samples 100 (1/10) 5 50 = 10 := by
    unfold complexity_analyzer.target_samples
    rw [hfl]
    rfl
  have h1 : 1 ≤ complexity_analyzer.target_samples 100 (1/10) 5 50 := by rw [htv]; norm_num
  refine ⟨⟨h1, by norm_num⟩,
    C6_analyzer_target_and_stop 100 (1/10) 5 50 [List.range 20] (fun _ => true) h1
      (by norm_num), htv, ?_⟩
  have := (C6_analyzer_target_and_stop 100 (1/10) 5 50 [List.range 20] (fun _ => true) h1
    (by norm_num)).2
  rw [this, htv]
  decide

/-! Coverage check (`App::run_coverage_check` in redis-observer `main.rs`):
the K collected key sets are finite sets of keys (keys modelled by
naturals). -/

namespace coverage_check

/-- The union of all keys across all instances (`all_keys` /
`total_unique`). -/
def coverageUnion (key_sets : List (Finset ℕ)) : Finset ℕ :=
  key_sets.foldr (fun s acc => s ∪ acc) ∅

/-- `unique_keys` for instance i: the number of keys of set i contained in
no other set. -/
def unique_keys (key_sets : List (Finset ℕ)) (i : Fin key_sets.length) : ℕ :=
  ((key_sets.get i).filter (fun k =>
    ∀ j : Fin key_sets.length, j ≠ i → k ∉ key_sets.get j)).card

/-- `coverage` for instance i: |set(i)| / |union| × 100 when the union is
non-empty, else 100. -/
def coverage (key_sets : List (Finset ℕ)) (i : Fin key_sets.length) : ℚ :=
  if 0 < (coverageUnion key_sets).card then
    ((key_sets.get i).card : ℚ) / ((coverageUnion key_sets).card : ℚ) * 100
  else 100

/-- The union ⋃ⱼ Sⱼ as the spec writes it, indexed over the instances. -/
def coverageUnionSpec (key_sets : List (Finset ℕ)) : Finset ℕ :=
  Finset.univ.biUnion (fun i : Fin key_sets.length => key_sets.get i)

/-- Membership in the folded union. -/
theorem mem_coverageUnion {l : List (Finset ℕ)} {k : ℕ} :
    k ∈ coverageUnion l ↔ ∃ s ∈ l, k ∈ s := by
  induction l with
  | nil => simp [coverageUnion]
  | cons s t ih =>
    simp only [coverageUnion, List.foldr_cons] at ih ⊢
    rw [Finset.mem_union, ih]
    constructor
    · rintro (h | ⟨s', hs', hk⟩)
      · exact ⟨s, List.mem_cons_self s t, h⟩
      · exact ⟨s', List.mem_cons_of_mem s hs', hk⟩
    · rintro ⟨s', hs', hk⟩
      rcases List.mem_cons.mp hs' with rfl | hs'
      · exact Or.inl hk
      · exact Or.inr ⟨s', hs', hk⟩

/-- The loop union equals the indexed union of the spec. -/
theorem coverageUnion_eq_spec (l : List (Finset ℕ)) :
    coverageUnion l = coverageUnionSpec l := by
  ext k
  rw [mem_coverageUnion]
  simp only [coverageUnionSpec, Finset.mem_biUnion, Finset.mem_univ, true_and]
  constructor
  · rintro ⟨s, hs, hk⟩
    obtain ⟨i, hi⟩ := List.mem_iff_get.mp hs
    exact ⟨i, hi ▸ hk⟩
  · rintro ⟨i, hk⟩
    exact ⟨l.get i, List.get_mem l i.1 i.2, hk⟩

/-- Each instance's key set is contained in the union. -/
theorem get_subset_coverageUnion (l : List (Finset ℕ)) (i : Fin l.length) :
    l.get i ⊆ coverageUnion l :=
  fun _ hk => mem_coverageUnion.mpr ⟨l.get i, List.get_mem l i.1 i.2, hk⟩

end coverage_check

/-- C5: for key sets S₁…Sₖ collected from K ≥ 2 instances, unique(i) counts
the keys of Sᵢ contained in no other set, coverage(i) is
|Sᵢ| / |⋃ⱼ Sⱼ| × 100 when the union is non-empty (100 when it is empty)
with the loop union equal to the indexed union ⋃ⱼ Sⱼ, and consequently
Σᵢ unique(i) ≤ |⋃ᵢ Sᵢ|; the denominator is the single union cardinality for
every row. -/
theorem C5_coverage_check (key_sets : List (Finset ℕ)) (hK : 2 ≤ key_sets.length) :
    (∑ i : Fin key_sets.length, coverage_check.unique_keys key_sets i) ≤
      (coverage_check.coverageUnion key_sets).card ∧
    coverage_check.coverageUnion key_sets = coverage_check.coverageUnionSpec key_sets ∧
    (∀ i : Fin key_sets.length,
      (0 < (coverage_check.coverageUnionSpec key_sets).card →
        coverage_check.coverage key_sets i =
          ((key_sets.get i).card : ℚ) /
            ((coverage_check.coverageUnionSpec key_sets).card : ℚ) * 100) ∧
      ((coverage_check.coverageUnionSpec key_sets).card = 0 →
        coverage_check.coverage key_sets i = 100)) := by
  classical
  have hspec := coverage_check.coverageUnion_eq_spec key_sets
  refine ⟨?_, hspec, ?_⟩
  · set U : Fin key_sets.length → Finset ℕ := fun i =>
      (key_sets.get i).filter (fun k =>
        ∀ j : Fin key_sets.length, j ≠ i → k ∉ key_sets.get j) with hU
    have hdisj : ∀ i ∈ Finset.univ, ∀ j ∈ Finset.univ,
        i ≠ j → Disjoint (U i) (U j) := by
      intro i _ j _ hij
      rw [Finset.disjoint_left]
      intro k hki hkj
      rw [hU] at hki hkj
      simp only [Finset.mem_filter] at hki hkj
      exact hkj.2 i hij hki.1
    have hcard : ∑ i : Fin key_sets.length, (U i).card
        = (Finset.univ.biUnion U).card := (Finset.card_biUnion hdisj).symm
    have hsub : Finset.univ.biUnion U ⊆ coverage_check.coverageUnion key_sets := by
      rw [Finset.biUnion_subset]
      intro i _
      exact subset_trans (Finset.filter_subset _ _)
        (coverage_check.get_subset_coverageUnion key_sets i)
    calc ∑ i : Fin key_sets.length, coverage_check.unique_keys key_sets i
        = ∑ i : Fin key_sets.length, (U i).card := rfl
      _ = (Finset.univ.biUnion U).card := hcard
      _ ≤ (coverage_check.coverageUnion key_sets).card := Finset.card_le_card hsub
  · intro i
    constructor
    · intro hpos
      unfold coverage_check.coverage
      rw [hspec, if_pos hpos]
    · intro hzero
      unfold coverage_check.coverage
      rw [hspec, if_neg (by omega)]

/-- Concrete instantiation of C5 at the two key sets {0, 1} and {1, 2}: the
unique counts are 1 and 1, their sum 2 is at most the union size 3, and the
coverage of the first instance is 2/3 × 100. -/
theorem C5_coverage_check_witness :
    (2 ≤ ([({0, 1} : Finset ℕ), {1, 2}] : List (Finset ℕ)).length) ∧
    ((∑ i : Fin ([({0, 1} : Finset ℕ), {1, 2}] : List (Finset ℕ)).length,
        coverage_check.unique_keys [({0, 1} : Finset ℕ), {1, 2}] i) ≤
      (coverage_check.coverageUnion [({0, 1} : Finset ℕ), {1, 2}]).card ∧
     coverage_check.coverageUnion [({0, 1} : Finset ℕ), {1, 2}] =
       coverage_check.coverageUnionSpec [({0, 1} : Finset ℕ), {1, 2}]) ∧
    (∑ i : Fin ([({0, 1} : Finset ℕ), {1, 2}] : List (Finset ℕ)).length,
        coverage_check.unique_keys [({0, 1} : Finset ℕ), {1, 2}] i) = 2 ∧
    (coverage_check.coverageUnion [({0, 1} : Finset ℕ), {1, 2}]).card = 3 := by
  have h := C5_coverage_check [({0, 1} : Finset ℕ), {1, 2}] (by norm_num)
  exact ⟨by norm_num, ⟨h.1, h.2.1⟩, by decide, by decide⟩

end Eden

